import Mathlib

/-!
# Verification of the nulstr utilities (`src/basic/nulstr-util.c`)

A shallow embedding of the four conversion functions between the two
string-collection representations of the C source:

* a byte buffer (`List Nat`, where the byte value `0` is the NUL byte), and
* a string vector (`List (List Nat)`, each element the bytes of one owned
  C string, i.e. the bytes before its NUL terminator).

Allocation is modelled as always succeeding, so the `-ENOMEM` / `NULL`
failure paths of the C code collapse; every theorem below is about the
successful executions.  A nullable `char **` strv argument or a nullable
`const char *` nulstr argument is modelled as an `Option`.
-/

/-- Model of C `strlen` on the bytes of a buffer: the number of bytes
before the first NUL byte. -/
def cstrlen (a : List Nat) : Nat := (a.takeWhile (fun b => b != 0)).length

/-- The scanning loop of `strv_parse_nulstr` (second pass, lines 35-50 of
the C file), acting on the remaining window `[p, s+l)` of the input.
`memchr(p, 0, s + l - p)` either finds the first NUL — modelled by
`takeWhile (fun b => b != 0)`, whose length is the offset of that NUL —
or finds none, exactly when that prefix is the whole window.  The bytes
before the NUL (or the whole window) become the next element
(`memdup_suffix0`); scanning resumes just after the NUL, and stops when
the window is empty or when no NUL was found. -/
def parseLoop (s : List Nat) : List (List Nat) :=
  if hs : s = [] then []
  else
    let seg := s.takeWhile (fun b => b != 0)
    if seg.length = s.length then [seg]
    else seg :: parseLoop (s.drop (seg.length + 1))
termination_by s.length
decreasing_by
  simp only [List.length_drop]
  have h0 : 0 < s.length := List.length_pos.mpr hs
  omega

/-- `strv_parse_nulstr(s, l)`: the bounded nulstr parser.  `l = 0`
returns a fresh empty vector (`new0(char*, 1)`); otherwise the `l` bytes
starting at `s` are split at NUL bytes by the scanning loop.  The first
counting pass and the `assert(i == c)` of the C code only size the
allocation; the count property is proved below as `c1_segment_count`. -/
def strv_parse_nulstr (s : List Nat) (l : Nat) : List (List Nat) :=
  if l = 0 then [] else parseLoop (s.take l)

/-- Modelled from the spec: the `NULSTR_FOREACH` iteration helper (the C
macro lives in a header outside `src/`).  Spec §6: iteration over an
unbounded nulstr proceeds "segment-by-segment, stopping at the first
empty segment".  This function is the sequence of segments such an
iteration visits: starting at the buffer start, while the current byte
is not NUL, yield the NUL-terminated segment beginning there and resume
just after its NUL terminator. -/
def nulstrSegments : List Nat → List (List Nat)
  | [] => []
  | b :: rest =>
    if b = 0 then []
    else
      let seg := (b :: rest).takeWhile (fun x => x != 0)
      seg :: nulstrSegments ((b :: rest).drop (seg.length + 1))
termination_by s => s.length
decreasing_by
  simp only [List.length_drop, List.length_cons]
  omega

/-- The loop of `strv_split_nulstr`: a `NULSTR_FOREACH` over the input
which `strv_extend`s the accumulated vector with a copy of each visited
segment.  The accumulator is `none` while the C pointer `l` is still
`NULL`, i.e. before the first append (spec §6: the append primitive may
start from an absent vector). -/
def strv_split_loop (acc : Option (List (List Nat))) : List Nat → Option (List (List Nat))
  | [] => acc
  | b :: rest =>
    if b = 0 then acc
    else
      let i := (b :: rest).takeWhile (fun x => x != 0)
      strv_split_loop (some (acc.getD [] ++ [i])) ((b :: rest).drop (i.length + 1))
termination_by s => s.length
decreasing_by
  simp only [List.length_drop, List.length_cons]
  omega

/-- `strv_split_nulstr(s)`: the unbounded nulstr parser.  It runs the
`NULSTR_FOREACH`/`strv_extend` loop starting from an absent vector and
finally replaces a still-absent result by a fresh empty vector
(`l ? TAKE_PTR(l) : strv_new(NULL)`). -/
def strv_split_nulstr (s : List Nat) : List (List Nat) :=
  match strv_split_loop none s with
  | some v => v
  | none => []

/-- The `NULSTR_FOREACH` loop of `nulstr_get`: visit the segments of the
nulstr in order and return the first one `streq` to the needle, or
`none` when the iteration ends at an empty segment first. -/
def nulstr_getLoop (needle : List Nat) : List Nat → Option (List Nat)
  | [] => none
  | b :: rest =>
    if b = 0 then none
    else
      let i := (b :: rest).takeWhile (fun x => x != 0)
      if i = needle then some i
      else nulstr_getLoop needle ((b :: rest).drop (i.length + 1))
termination_by s => s.length
decreasing_by
  simp only [List.length_drop, List.length_cons]
  omega

/-- `nulstr_get(nulstr, needle)`: `NULL` input is a defined non-match;
otherwise the lookup loop runs over the segments. -/
def nulstr_get (nulstr : Option (List Nat)) (needle : List Nat) : Option (List Nat) :=
  match nulstr with
  | none => none
  | some s => nulstr_getLoop needle s

/-- `strv_make_nulstr(l, &ret, &ret_size)`: serialize a (nullable) string
vector.  For each element `i` in order (`STRV_FOREACH` iterates zero
times over a `NULL` strv), `z = strlen(*i)` bytes plus the NUL
terminator are appended (`memcpy(m + n, *i, z + 1)`) and the logical
size `n` advances by `z + 1`.  If the buffer is still unallocated
afterwards (no elements), a fresh 2-byte zeroed buffer (`new0(char, 2)`,
modelled from the spec §6 zero-initializing allocation) with size 0 is
returned; otherwise one extra NUL byte is written at offset `n`
(`m[n] = 0`), not counted in the returned size.  The result models the
written bytes of the buffer together with the reported size. -/
def strv_make_nulstr (l : Option (List (List Nat))) : List Nat × Nat :=
  let mn := (l.getD []).foldl
    (fun (acc : List Nat × Nat) i =>
      let z := cstrlen i
      (acc.1 ++ (i.takeWhile (fun b => b != 0) ++ [0]), acc.2 + z + 1))
    ([], 0)
  if mn.1 = [] then ([0, 0], 0) else (mn.1 ++ [0], mn.2)

/-- The "tail bonus" of the segment-count formula: 1 when the buffer is
nonempty and its last byte is not NUL (the unterminated final segment),
0 otherwise. -/
def tailBonus (t : List Nat) : Nat :=
  match t.getLast? with
  | none => 0
  | some b => if b = 0 then 0 else 1

lemma parseLoop_nil : parseLoop [] = [] := by
  rw [parseLoop]; simp

lemma parseLoop_cons_zero (r : List Nat) : parseLoop (0 :: r) = [] :: parseLoop r := by
  conv_lhs => rw [parseLoop]
  simp

lemma parseLoop_singleton {b : Nat} (hb : b ≠ 0) : parseLoop [b] = [[b]] := by
  rw [parseLoop]
  simp [hb]

lemma parseLoop_cons_of_ne {b : Nat} {r : List Nat} (hb : b ≠ 0) (hr : r ≠ []) :
    parseLoop (b :: r) = (parseLoop r).modifyHead (fun sg => b :: sg) := by
  have hpb : (b != 0) = true := by simpa using hb
  by_cases htw : (r.takeWhile (fun x => x != 0)).length = r.length
  · have heq : r.takeWhile (fun x => x != 0) = r :=
      List.IsPrefix.eq_of_length (List.takeWhile_prefix _) htw
    conv_lhs => rw [parseLoop]
    conv_rhs => rw [parseLoop]
    simp [hr, hpb, heq]
  · conv_lhs => rw [parseLoop]
    conv_rhs => rw [parseLoop]
    simp [hr, hpb, htw]

lemma parseLoop_ne_nil {r : List Nat} (hr : r ≠ []) : parseLoop r ≠ [] := by
  rw [parseLoop, dif_neg hr]
  by_cases h : (List.takeWhile (fun b => b != 0) r).length = r.length <;> simp [h]

lemma tailBonus_nil : tailBonus [] = 0 := rfl

lemma tailBonus_singleton (b : Nat) : tailBonus [b] = if b = 0 then 0 else 1 := by
  simp [tailBonus]

lemma tailBonus_cons_of_ne_nil (b : Nat) {t : List Nat} (ht : t ≠ []) :
    tailBonus (b :: t) = tailBonus t := by
  rcases t with _ | ⟨x, t2⟩
  · exact absurd rfl ht
  · simp [tailBonus, List.getLast?_cons_cons]

lemma parseLoop_length (t : List Nat) : (parseLoop t).length = t.count 0 + tailBonus t := by
  induction t with
  | nil => simp [parseLoop_nil, tailBonus_nil]
  | cons b t2 ih =>
    by_cases hb : b = 0
    · subst hb
      rcases eq_or_ne t2 [] with rfl | ht2
      · simp [parseLoop_cons_zero, parseLoop_nil, tailBonus_singleton]
      · rw [parseLoop_cons_zero]
        simp only [List.length_cons, List.count_cons, tailBonus_cons_of_ne_nil _ ht2, ih]
        simp
        omega
    · rcases eq_or_ne t2 [] with rfl | ht2
      · simp [parseLoop_singleton hb, tailBonus_singleton, hb, List.count_singleton,
          Ne.symm hb]
      · rw [parseLoop_cons_of_ne hb ht2]
        simp only [List.length_modifyHead, ih, List.count_cons,
          tailBonus_cons_of_ne_nil _ ht2]
        simp [hb]

lemma parseLoop_append_cons_zero {a : List Nat} (r : List Nat) (ha : (0 : Nat) ∉ a) :
    parseLoop (a ++ 0 :: r) = a :: parseLoop r := by
  induction a with
  | nil => simp [parseLoop_cons_zero]
  | cons x a2 ih =>
    have hx : x ≠ 0 := fun h => ha (h ▸ List.mem_cons_self x a2)
    have ha2 : (0 : Nat) ∉ a2 := fun h => ha (List.mem_cons_of_mem _ h)
    have hne : a2 ++ 0 :: r ≠ [] := by simp
    rw [List.cons_append, parseLoop_cons_of_ne hx hne, ih ha2]
    simp

lemma nulstrSegments_nil : nulstrSegments [] = [] := by
  rw [nulstrSegments]

lemma nulstrSegments_cons_zero (r : List Nat) : nulstrSegments (0 :: r) = [] := by
  rw [nulstrSegments]
  simp

lemma nulstrSegments_cons_of_ne {b : Nat} (r : List Nat) (hb : b ≠ 0) :
    nulstrSegments (b :: r) =
      ((b :: r).takeWhile (fun x => x != 0)) ::
        nulstrSegments ((b :: r).drop (((b :: r).takeWhile (fun x => x != 0)).length + 1)) := by
  rw [nulstrSegments]
  simp [hb]

lemma nulstrSegments_mem_ne_nil : ∀ (s : List Nat), ∀ a ∈ nulstrSegments s, a ≠ []
  | [] => by simp [nulstrSegments_nil]
  | b :: rest => by
    by_cases hb : b = 0
    · subst hb; simp [nulstrSegments_cons_zero]
    · intro a ha
      rw [nulstrSegments_cons_of_ne rest hb] at ha
      rcases List.mem_cons.mp ha with h1 | h2
      · subst h1
        rw [List.takeWhile_cons]
        simp [hb]
      · exact nulstrSegments_mem_ne_nil ((b :: rest).drop
          (((b :: rest).takeWhile (fun x => x != 0)).length + 1)) a h2
termination_by s => s.length
decreasing_by
  simp only [List.length_drop, List.length_cons]
  omega

lemma strv_split_loop_eq : ∀ (s : List Nat) (acc : Option (List (List Nat))),
    strv_split_loop acc s =
      if nulstrSegments s = [] then acc
      else some (acc.getD [] ++ nulstrSegments s)
  | [], acc => by simp [strv_split_loop, nulstrSegments_nil]
  | b :: rest, acc => by
    by_cases hb : b = 0
    · subst hb; simp [strv_split_loop, nulstrSegments_cons_zero]
    · have ih := strv_split_loop_eq ((b :: rest).drop
        (((b :: rest).takeWhile (fun x => x != 0)).length + 1))
        (some (acc.getD [] ++ [(b :: rest).takeWhile (fun x => x != 0)]))
      rw [nulstrSegments_cons_of_ne rest hb]
      simp only [strv_split_loop, if_neg hb]
      rw [ih]
      by_cases h2 : nulstrSegments ((b :: rest).drop
          (((b :: rest).takeWhile (fun x => x != 0)).length + 1)) = [] <;>
        simp [h2]
termination_by s => s.length
decreasing_by
  simp only [List.length_drop, List.length_cons]
  omega

lemma strv_split_nulstr_eq_segments (s : List Nat) :
    strv_split_nulstr s = nulstrSegments s := by
  rw [strv_split_nulstr, strv_split_loop_eq]
  by_cases h : nulstrSegments s = [] <;> simp [h]

lemma nulstr_getLoop_eq : ∀ (s : List Nat) (needle : List Nat),
    nulstr_getLoop needle s = (nulstrSegments s).find? (fun i => i == needle)
  | [], needle => by simp [nulstr_getLoop, nulstrSegments_nil]
  | b :: rest, needle => by
    by_cases hb : b = 0
    · subst hb; simp [nulstr_getLoop, nulstrSegments_cons_zero]
    · have ih := nulstr_getLoop_eq ((b :: rest).drop
        (((b :: rest).takeWhile (fun x => x != 0)).length + 1)) needle
      rw [nulstrSegments_cons_of_ne rest hb]
      simp only [nulstr_getLoop, if_neg hb]
      by_cases he : (b :: rest).takeWhile (fun x => x != 0) = needle
      · have : ((b :: rest).takeWhile (fun x => x != 0) == needle) = true := by
          simpa using he
        simp [he, List.find?_cons, this]
      · have : ((b :: rest).takeWhile (fun x => x != 0) == needle) = false := by
          simpa using he
        simp only [if_neg he, ih]
        simp [List.find?_cons, this]
termination_by s => s.length
decreasing_by
  simp only [List.length_drop, List.length_cons]
  omega

/-- The bytes written into the buffer by the `STRV_FOREACH` loop of
`strv_make_nulstr`: for each element in order, its bytes up to the first
NUL followed by the NUL terminator. -/
def serialContent : List (List Nat) → List Nat
  | [] => []
  | a :: v => (a.takeWhile (fun b => b != 0) ++ [0]) ++ serialContent v

/-- The logical size accumulated by the loop of `strv_make_nulstr`. -/
def serialSize : List (List Nat) → Nat
  | [] => 0
  | a :: v => (cstrlen a + 1) + serialSize v

lemma strv_make_foldl (v : List (List Nat)) : ∀ (m0 : List Nat) (n0 : Nat),
    v.foldl
      (fun (acc : List Nat × Nat) i =>
        let z := cstrlen i
        (acc.1 ++ (i.takeWhile (fun b => b != 0) ++ [0]), acc.2 + z + 1))
      (m0, n0) = (m0 ++ serialContent v, n0 + serialSize v) := by
  induction v with
  | nil => simp [serialContent, serialSize]
  | cons a v2 ih =>
    intro m0 n0
    rw [List.foldl_cons, ih]
    simp [serialContent, serialSize]
    omega

lemma serialContent_eq_nil_iff (v : List (List Nat)) : serialContent v = [] ↔ v = [] := by
  cases v <;> simp [serialContent]

lemma strv_make_nulstr_some (v : List (List Nat)) :
    strv_make_nulstr (some v) =
      if v = [] then ([0, 0], 0) else (serialContent v ++ [0], serialSize v) := by
  rw [strv_make_nulstr]
  simp only [Option.getD_some, strv_make_foldl, List.nil_append, Nat.zero_add]
  rcases eq_or_ne v [] with rfl | hv
  · simp [serialContent]
  · simp [serialContent_eq_nil_iff, hv]

lemma serialContent_length (v : List (List Nat)) :
    (serialContent v).length = serialSize v := by
  induction v with
  | nil => simp [serialContent, serialSize]
  | cons a v2 ih => simp [serialContent, serialSize, ih, cstrlen]; omega

lemma serialContent_getLast? (v : List (List Nat)) (hv : v ≠ []) :
    (serialContent v).getLast? = some 0 := by
  induction v with
  | nil => exact absurd rfl hv
  | cons a v2 ih =>
    rcases eq_or_ne v2 [] with rfl | hv2
    · simp [serialContent]
    · rw [serialContent, List.getLast?_append_of_ne_nil]
      · exact ih hv2
      · simpa [serialContent_eq_nil_iff] using hv2

lemma cstrlen_of_not_mem {a : List Nat} (ha : (0 : Nat) ∉ a) : cstrlen a = a.length := by
  rw [cstrlen, List.takeWhile_eq_self_iff.mpr]
  intro x hx
  simp only [bne_iff_ne, ne_eq]
  intro h
  exact ha (h ▸ hx)

lemma takeWhile_of_not_mem {a : List Nat} (ha : (0 : Nat) ∉ a) :
    a.takeWhile (fun b => b != 0) = a := by
  apply List.takeWhile_eq_self_iff.mpr
  intro x hx
  simp only [bne_iff_ne, ne_eq]
  intro h
  exact ha (h ▸ hx)

lemma serialContent_of_no_nul (v : List (List Nat)) (h : ∀ a ∈ v, (0 : Nat) ∉ a) :
    parseLoop (serialContent v) = v := by
  induction v with
  | nil => simp [serialContent, parseLoop_nil]
  | cons a v2 ih =>
    have ha : (0 : Nat) ∉ a := h a (List.mem_cons_self a v2)
    have h2 : ∀ b ∈ v2, (0 : Nat) ∉ b := fun b hb => h b (List.mem_cons_of_mem _ hb)
    rw [serialContent, takeWhile_of_not_mem ha]
    have : (a ++ [0]) ++ serialContent v2 = a ++ 0 :: serialContent v2 := by simp
    rw [this, parseLoop_append_cons_zero _ ha, ih h2]

lemma serialSize_of_no_nul (v : List (List Nat)) (h : ∀ a ∈ v, (0 : Nat) ∉ a) :
    serialSize v = (v.map (fun a => a.length + 1)).sum := by
  induction v with
  | nil => simp [serialSize]
  | cons a v2 ih =>
    have ha : (0 : Nat) ∉ a := h a (List.mem_cons_self a v2)
    have h2 : ∀ b ∈ v2, (0 : Nat) ∉ b := fun b hb => h b (List.mem_cons_of_mem _ hb)
    simp [serialSize, cstrlen_of_not_mem ha, ih h2]

/-- C1: for every bounded input `(s, l)` with `l` bytes available, the
number of elements produced by `strv_parse_nulstr(s, l)` equals the
number of NUL bytes among the first `l` bytes, plus 1 precisely when
`l > 0` and the last byte `s[l-1]` is not NUL. -/
theorem c1_segment_count (s : List Nat) (l : Nat) (h : l ≤ s.length) :
    (strv_parse_nulstr s l).length =
      (s.take l).count 0 + (if 0 < l ∧ s.getD (l - 1) 0 ≠ 0 then 1 else 0) := by
  rcases Nat.eq_zero_or_pos l with rfl | hl
  · simp [strv_parse_nulstr]
  · rw [strv_parse_nulstr, if_neg (Nat.pos_iff_ne_zero.mp hl), parseLoop_length]
    congr 1
    have hl1 : l - 1 < s.length := by omega
    have hlt : (s.take l).length = l := by
      rw [List.length_take]; omega
    have hgl : (s.take l).getLast? = some (s.getD (l - 1) 0) := by
      rw [List.getLast?_eq_getElem?, hlt, List.getElem?_take_of_lt (by omega),
        List.getElem?_eq_getElem hl1, List.getD_eq_getElem s 0 hl1]
    simp only [tailBonus, hgl]
    by_cases hz : s.getD (l - 1) 0 = 0 <;> simp [hz, hl]

/-- Witness for C1 at the concrete input `("a\0b", 3)`. -/
theorem c1_segment_count_witness :
    (strv_parse_nulstr [97, 0, 98] 3).length =
      (([97, 0, 98] : List Nat).take 3).count 0 +
        (if 0 < 3 ∧ ([97, 0, 98] : List Nat).getD (3 - 1) 0 ≠ 0 then 1 else 0) :=
  c1_segment_count [97, 0, 98] 3 (by decide)

/-- C2: serializing a vector of NUL-free strings with `strv_make_nulstr`
and parsing the buffer back with `strv_parse_nulstr` at the reported
logical size reproduces the vector exactly, in order. -/
theorem c2_round_trip (v : List (List Nat)) (h : ∀ a ∈ v, (0 : Nat) ∉ a) :
    strv_parse_nulstr (strv_make_nulstr (some v)).1 (strv_make_nulstr (some v)).2 = v := by
  rcases eq_or_ne v [] with rfl | hv
  · simp [strv_make_nulstr_some, strv_parse_nulstr]
  · have hsz : serialSize v ≠ 0 := by
      rw [← serialContent_length]
      simpa [serialContent_eq_nil_iff] using hv
    have htake : (serialContent v ++ [0]).take (serialSize v) = serialContent v := by
      conv_lhs => rw [← serialContent_length]
      exact List.take_left _ _
    rw [strv_make_nulstr_some, if_neg hv]
    show strv_parse_nulstr (serialContent v ++ [0]) (serialSize v) = v
    rw [strv_parse_nulstr, if_neg hsz, htake]
    exact serialContent_of_no_nul v h

/-- Witness for C2 at the concrete vector `["a", "bc"]`. -/
theorem c2_round_trip_witness :
    strv_parse_nulstr (strv_make_nulstr (some [[97], [98, 99]])).1
      (strv_make_nulstr (some [[97], [98, 99]])).2 = [[97], [98, 99]] :=
  c2_round_trip [[97], [98, 99]] (by decide)

/-- C3 counterexample: for the empty vector the claim fails — the
physical buffer is `[0, 0]`, i.e. two bytes beyond the logical size 0,
not exactly one additional trailing NUL byte. -/
theorem c3_counterexample :
    strv_make_nulstr (some ([] : List (List Nat))) = (([0, 0] : List Nat), 0) ∧
      (strv_make_nulstr (some ([] : List (List Nat)))).1.length ≠
        (strv_make_nulstr (some ([] : List (List Nat)))).2 + 1 := by
  constructor <;> decide

/-- C3 (amended): a successful `strv_make_nulstr(v)` reports a logical
size equal to the sum of (element length + 1) over the elements; when
the vector is non-empty the physical buffer contains exactly one
additional trailing NUL byte beyond the logical size, and when the
vector is empty the buffer is exactly two NUL bytes with logical
size 0. -/
theorem c3_amended_sizes (v : List (List Nat)) (h : ∀ a ∈ v, (0 : Nat) ∉ a) :
    (strv_make_nulstr (some v)).2 = (v.map (fun a => a.length + 1)).sum ∧
      (v ≠ [] →
        (strv_make_nulstr (some v)).1.length = (strv_make_nulstr (some v)).2 + 1) ∧
      (v = [] → strv_make_nulstr (some v) = (([0, 0] : List Nat), 0)) := by
  refine ⟨?_, ?_, ?_⟩
  · rcases eq_or_ne v [] with rfl | hv
    · simp [strv_make_nulstr_some]
    · rw [strv_make_nulstr_some, if_neg hv]
      exact serialSize_of_no_nul v h
  · intro hv
    rw [strv_make_nulstr_some, if_neg hv]
    show (serialContent v ++ [0]).length = serialSize v + 1
    simp [serialContent_length]
  · intro hv
    subst hv
    simp [strv_make_nulstr_some]

/-- Witness for the amended C3 at the concrete vector `["a"]`. -/
theorem c3_amended_sizes_witness :
    (strv_make_nulstr (some [[97]])).2 = ([[97]].map (fun a => a.length + 1)).sum ∧
      (([[97]] : List (List Nat)) ≠ [] →
        (strv_make_nulstr (some [[97]])).1.length = (strv_make_nulstr (some [[97]])).2 + 1) ∧
      (([[97]] : List (List Nat)) = [] → strv_make_nulstr (some [[97]]) = (([0, 0] : List Nat), 0)) :=
  c3_amended_sizes [[97]] (by decide)

/-- C4 counterexample: for the vector `["a"]` the returned buffer is
`[97, 0, 0]` with logical size 2, so there is no byte at offset
`size + 1 = 3` at all — the claimed NUL byte at offset `size + 1` does
not exist. -/
theorem c4_counterexample :
    ¬ (2 ≤ (strv_make_nulstr (some [[97]])).1.length ∧
        (strv_make_nulstr (some [[97]])).1[(strv_make_nulstr (some [[97]])).2]? = some 0 ∧
        (strv_make_nulstr (some [[97]])).1[(strv_make_nulstr (some [[97]])).2 + 1]? = some 0) := by
  decide

/-- C4 (amended): every non-failing `strv_make_nulstr` call returns a
physical buffer of at least 2 bytes whose byte at offset `size` (the
reported logical size) is NUL and whose last two bytes are both NUL;
the byte at offset `size + 1` exists only in the empty case, where the
buffer is `[0, 0]` and `size = 0`. -/
theorem c4_amended_double_nul (v : Option (List (List Nat))) :
    2 ≤ (strv_make_nulstr v).1.length ∧
      (strv_make_nulstr v).1[(strv_make_nulstr v).2]? = some 0 ∧
      (strv_make_nulstr v).1[(strv_make_nulstr v).1.length - 1]? = some 0 ∧
      (strv_make_nulstr v).1[(strv_make_nulstr v).1.length - 2]? = some 0 ∧
      (v.getD [] ≠ [] →
        (strv_make_nulstr v).1.length = (strv_make_nulstr v).2 + 1 ∧
          (strv_make_nulstr v).1[(strv_make_nulstr v).2 + 1]? = none) ∧
      (v.getD [] = [] → strv_make_nulstr v = (([0, 0] : List Nat), 0)) := by
  rcases v with _ | w
  · exact ⟨by decide, by decide, by decide, by decide,
      fun h => absurd rfl h, fun _ => by decide⟩
  rcases eq_or_ne w [] with rfl | hw
  · exact ⟨by decide, by decide, by decide, by decide,
      fun h => absurd rfl h, fun _ => by decide⟩
  rw [strv_make_nulstr_some, if_neg hw]
  have hsc : serialContent w ≠ [] := by simpa [serialContent_eq_nil_iff] using hw
  have hpos : 0 < (serialContent w).length := List.length_pos.mpr hsc
  have hlen : (serialContent w ++ [0]).length = (serialContent w).length + 1 := by simp
  have hsz : serialSize w = (serialContent w).length := (serialContent_length w).symm
  refine ⟨?_, ?_, ?_, ?_, ?_, ?_⟩
  · show 2 ≤ (serialContent w ++ [0]).length
    rw [hlen]; omega
  · show (serialContent w ++ [0])[serialSize w]? = some 0
    rw [hsz, List.getElem?_concat_length]
  · show (serialContent w ++ [0])[(serialContent w ++ [0]).length - 1]? = some 0
    rw [hlen]
    simp only [Nat.add_sub_cancel]
    rw [List.getElem?_concat_length]
  · show (serialContent w ++ [0])[(serialContent w ++ [0]).length - 2]? = some 0
    rw [hlen]
    have h2 : (serialContent w).length + 1 - 2 = (serialContent w).length - 1 := by omega
    rw [h2, List.getElem?_append_left (by omega)]
    rw [← List.getLast?_eq_getElem?]
    exact serialContent_getLast? w hw
  · intro _
    constructor
    · show (serialContent w ++ [0]).length = serialSize w + 1
      rw [hlen, hsz]
    · show (serialContent w ++ [0])[serialSize w + 1]? = none
      apply List.getElem?_eq_none
      rw [hlen, hsz]
  · intro h
    exact absurd (by simpa using h) hw

/-- C5: `strv_split_nulstr` returns exactly the `NULSTR_FOREACH` segment
sequence — each non-empty segment is appended in order and iteration
stops at the first empty segment without appending it; in particular the
buffer `"a\0\0b\0\0"` yields exactly `["a"]`, and when no element is
collected the result is the empty vector (`strv_new(NULL)`), not an
absent one. -/
theorem c5_split_nulstr_behavior :
    (∀ s : List Nat, strv_split_nulstr s = nulstrSegments s) ∧
      strv_split_nulstr [97, 0, 0, 98, 0, 0] = [[97]] ∧
      strv_split_nulstr [0] = [] := by
  refine ⟨strv_split_nulstr_eq_segments, ?_, ?_⟩
  · rw [strv_split_nulstr_eq_segments]
    simp [nulstrSegments]
  · rw [strv_split_nulstr_eq_segments]
    simp [nulstrSegments]

/-- C6: `nulstr_get` returns "not found" on a null nulstr, and on a
non-null nulstr returns the first iterated segment (stopping at the
first empty segment) that is byte-for-byte equal to the needle — `none`
when no such segment exists; any returned segment equals the needle. -/
theorem c6_nulstr_get_lookup (s needle : List Nat) :
    nulstr_get none needle = none ∧
      nulstr_get (some s) needle = (nulstrSegments s).find? (fun i => i == needle) ∧
      (∀ r, nulstr_get (some s) needle = some r → r = needle) := by
  refine ⟨rfl, nulstr_getLoop_eq s needle, ?_⟩
  intro r hr
  have hfind : (nulstrSegments s).find? (fun i => i == needle) = some r := by
    rw [← nulstr_getLoop_eq s needle]
    exact hr
  have := List.find?_some hfind
  simpa using this

/-- C8: serializing an absent (`NULL`) vector and serializing an empty
vector produce the same result — a 2-byte all-NUL buffer with reported
logical size 0. -/
theorem c8_empty_serialize :
    strv_make_nulstr none = (([0, 0] : List Nat), 0) ∧
      strv_make_nulstr (some []) = (([0, 0] : List Nat), 0) := by
  constructor <;> rfl

/-- C9: for every byte buffer, the bounded parse with length 0 returns
the vector with exactly 0 elements. -/
theorem c9_parse_length_zero (s : List Nat) : strv_parse_nulstr s 0 = [] := by
  simp [strv_parse_nulstr]

/-- C10: every element of a successful `strv_split_nulstr` result is a
non-empty string — the unbounded parser stops at the first empty segment
before it would be appended. -/
theorem c10_split_elements_nonempty (s : List Nat) (a : List Nat)
    (ha : a ∈ strv_split_nulstr s) : a ≠ [] := by
  rw [strv_split_nulstr_eq_segments] at ha
  exact nulstrSegments_mem_ne_nil s a ha

/-- Witness for C10: the element `"a"` of `strv_split_nulstr "a\0"` is
non-empty. -/
theorem c10_split_elements_nonempty_witness : ([97] : List Nat) ≠ [] :=
  c10_split_elements_nonempty [97, 0] [97]
    (by simp [strv_split_nulstr_eq_segments, nulstrSegments])
